import Mathlib

/-!
Shallow embedding of `src/document/section/section.rs` from the `notes` repository.

The Rust code defines a `Section` record (header, information map, related map), a
parser `Section::parse` that splits a text block on newlines, classifies every
non-header line through the external `Information::parse` collaborator, and routes
each classified `(category, text)` pair into one of two maps; and a reconciler
`Section::update_related` that rewrites every reference string of the `related`
map to an exact known header.

Modelling conventions:
  * Rust `HashMap<String, Vec<String>>` becomes an association list with unique
    keys in first-insertion order; the claims only speak of key sets and of the
    ordered value vectors, both of which the association list represents exactly.
  * Rust panics (`Option::unwrap` on `None`) become an outer `Option` whose
    `none` is the abort; the Rust return type `Result<Self, ()>` of `parse`
    becomes the inner `Except Unit Section`.
  * The Line Classifier `Information::parse` is an external collaborator whose
    source is not part of this repository; following its contract it is passed
    in as a function `String → Option (String × String)` producing a
    `(category, text)` pair on success and `none` on a classification failure.
-/

/-- One topic entry of the notes: `struct Section` in `section.rs`, with
`header`, `information` and `related` fields. -/
structure Section where
  header : String
  information : List (String × List String)
  related : List (String × List String)
deriving DecidableEq

/-- Lookup in the association-list model of a Rust `HashMap` (`HashMap::get`). -/
def mapGet (m : List (String × List String)) (k : String) : Option (List String) :=
  match m with
  | [] => none
  | (k₁, v) :: rest => if k₁ = k then some v else mapGet rest k

/-- The vector stored at key `k`, or the empty vector when the key is absent. -/
def lookupD (m : List (String × List String)) (k : String) : List String :=
  (mapGet m k).getD []

/-- Push `t` onto the vector at key `k`, creating a fresh singleton vector when
the key is absent: the `match map.get_mut(&category) { Some(vec) => vec.push(text),
None => map.insert(category, vec![text]) }` pattern of `Section::parse`. -/
def mapPush (m : List (String × List String)) (k : String) (t : String) :
    List (String × List String) :=
  match m with
  | [] => [(k, [t])]
  | (k₁, v) :: rest =>
    if k₁ = k then (k₁, v ++ [t]) :: rest else (k₁, v) :: mapPush rest k t

/-- Split a character list at every newline character: the embedding of Rust
`str::split("\n")`, which always yields at least one (possibly empty) piece. -/
def splitChars : List Char → List (List Char)
  | [] => [[]]
  | c :: rest =>
    if c = '\n' then [] :: splitChars rest
    else
      match splitChars rest with
      | [] => [[c]]
      | l :: ls => (c :: l) :: ls

/-- `let raw_lines: Vec<&str> = s.split("\n").collect()` from `Section::parse`. -/
def splitLines (s : String) : List String :=
  (splitChars s.data).map String.mk

/-- The three reserved category names that `Section::parse` routes to the
`related` map (`"Ancestors" | "Children" | "Related"` in the `match`). -/
def isRelatedCategory (c : String) : Bool :=
  c == "Ancestors" || c == "Children" || c == "Related"

/-- Map a fallible function over a list, failing as a whole on the first
failure: the shape shared by the classification pass of `Section::parse`
(where a `None` is an `unwrap` panic) and by the rebuilding of the `related`
map in `Section::update_related`. -/
def traverseOpt {α β : Type} (f : α → Option β) : List α → Option (List β)
  | [] => some []
  | a :: rest =>
    match f a with
    | none => none
    | some b =>
      match traverseOpt f rest with
      | none => none
      | some bs => some (b :: bs)

/-- Run the Line Classifier over every non-header line in order:
`lines_iter.skip(0).map(Information::parse).map(|i| i.unwrap())` in
`Section::parse`; the first classification failure aborts the whole pass
(the Rust code panics inside `unwrap`). -/
def classifyLines (classify : String → Option (String × String)) :
    List String → Option (List (String × String)) :=
  traverseOpt classify

/-- One iteration of the `for i in information_vec` loop of `Section::parse`:
a classified `(category, text)` pair is appended under its category in the
`related` accumulator when the category is reserved, otherwise in the
`information` accumulator. -/
def insertPair (acc : List (String × List String) × List (String × List String))
    (p : String × String) :
    List (String × List String) × List (String × List String) :=
  if isRelatedCategory p.1 then (acc.1, mapPush acc.2 p.1 p.2)
  else (mapPush acc.1 p.1 p.2, acc.2)

/-- `Section::parse`. The outer `Option` models the two possible panics (the
`unwrap` on the first line and the `unwrap` of each classification result);
the inner `Except Unit` is the Rust return type `Result<Self, ()>`, whose
`Err(())` variant the body never constructs. -/
def Section.parse (classify : String → Option (String × String)) (s : String) :
    Option (Except Unit Section) :=
  match splitLines s with
  | [] => none
  | header :: rest =>
    match classifyLines classify rest with
    | none => none
    | some pairs =>
      let maps := pairs.foldl insertPair ([], [])
      some (.ok { header := header, information := maps.1, related := maps.2 })

/-- Rust `str::starts_with` with a string pattern: `pat` is a character-wise
prefix of `h` (for UTF-8 strings the byte-prefix test of Rust coincides with
the character-prefix test). -/
def startsWith (h pat : String) : Bool :=
  List.isPrefixOf pat.data h.data

/-- `Section::find_matching_header`: the first header of `headers_vec` that the
string is a prefix of (`filter(|h| h.starts_with(&s)).next()`); `none` models
the `unwrap` panic when no header matches. -/
def findMatchingHeader (s : String) (headersVec : List String) : Option String :=
  (headersVec.filter (fun h => startsWith h s)).head?

/-- `Section::process_related_string`: an exact member of `headers_set` is kept
unchanged, otherwise the prefix scan over `headers_vec` runs. -/
def processRelatedString (s : String) (headersSet headersVec : List String) :
    Option String :=
  if s ∈ headersSet then some s
  else findMatchingHeader s headersVec

/-- `Section::process_related_entry`: resolve every string of one category's
vector, keeping the category key. -/
def processRelatedEntry (e : String × List String) (headersSet headersVec : List String) :
    Option (String × List String) :=
  (traverseOpt (fun s => processRelatedString s headersSet headersVec) e.2).map
    (fun v => (e.1, v))

/-- `Section::update_related`: rebuild the `related` map with every reference
string resolved; `header` and `information` are moved across unchanged. `none`
models the panic raised for an unresolved reference. -/
def Section.updateRelated (sec : Section) (headersSet headersVec : List String) :
    Option Section :=
  (traverseOpt (fun e => processRelatedEntry e headersSet headersVec) sec.related).map
    (fun related =>
      { header := sec.header, information := sec.information, related := related })

/-- The texts of the classified pairs carrying category `c`, in order. -/
def textsOf (pairs : List (String × String)) (c : String) : List String :=
  (pairs.filter (fun p => p.1 == c)).map Prod.snd

/-! Helper lemmas about the embedding. -/

theorem splitChars_ne_nil (l : List Char) : splitChars l ≠ [] := by
  induction l with
  | nil => simp [splitChars]
  | cons c rest ih =>
    simp only [splitChars]
    by_cases hc : c = '\n'
    · simp [hc]
    · simp only [hc, if_false]
      cases h : splitChars rest with
      | nil => simp
      | cons a as => simp

theorem splitLines_ne_nil (s : String) : splitLines s ≠ [] := by
  simp [splitLines, splitChars_ne_nil]

theorem traverseOpt_eq_none {α β : Type} (f : α → Option β) (l : List α) :
    traverseOpt f l = none ↔ ∃ a ∈ l, f a = none := by
  induction l with
  | nil => simp [traverseOpt]
  | cons a rest ih =>
    simp only [traverseOpt]
    cases hfa : f a with
    | none => simp [hfa]
    | some b =>
      cases hr : traverseOpt f rest with
      | none =>
        constructor
        · intro _
          obtain ⟨x, hx, hfx⟩ := ih.mp hr
          exact ⟨x, List.mem_cons_of_mem a hx, hfx⟩
        · intro _; rfl
      | some bs =>
        constructor
        · intro h; exact absurd h (by simp)
        · rintro ⟨x, hx, hfx⟩
          rcases List.mem_cons.mp hx with h | h
          · subst h; rw [hfa] at hfx; exact absurd hfx (by simp)
          · have hn : traverseOpt f rest = none := ih.mpr ⟨x, h, hfx⟩
            rw [hn] at hr; exact absurd hr (by simp)

theorem traverseOpt_forall₂ {α β : Type} (f : α → Option β) :
    ∀ (l : List α) (l' : List β), traverseOpt f l = some l' →
      List.Forall₂ (fun a b => f a = some b) l l' := by
  intro l
  induction l with
  | nil => intro l' h; simp [traverseOpt] at h; subst h; exact List.Forall₂.nil
  | cons a rest ih =>
    intro l' h
    simp only [traverseOpt] at h
    cases hfa : f a with
    | none => simp [hfa] at h
    | some b =>
      rw [hfa] at h
      cases hr : traverseOpt f rest with
      | none => simp [hr] at h
      | some bs =>
        rw [hr] at h
        simp only [Option.some.injEq] at h
        subst h
        exact List.Forall₂.cons hfa (ih bs hr)

theorem traverseOpt_id {α : Type} (f : α → Option α) (l : List α)
    (h : ∀ a ∈ l, f a = some a) : traverseOpt f l = some l := by
  induction l with
  | nil => simp [traverseOpt]
  | cons a rest ih =>
    simp only [traverseOpt]
    rw [h a (List.mem_cons_self a rest), ih (fun x hx => h x (List.mem_cons_of_mem a hx))]

theorem lookupD_mapPush (m : List (String × List String)) (k t c : String) :
    lookupD (mapPush m k t) c =
      if k = c then lookupD m c ++ [t] else lookupD m c := by
  induction m with
  | nil =>
    by_cases hk : k = c <;> simp [mapPush, mapGet, lookupD, hk]
  | cons e rest ih =>
    obtain ⟨k₁, v⟩ := e
    simp only [mapPush]
    by_cases h1 : k₁ = k
    · subst h1
      by_cases hk : k₁ = c <;> simp [lookupD, mapGet, hk]
    · simp only [h1, if_false]
      by_cases hk : k₁ = c
      · subst hk
        have : ¬ k = k₁ := fun h => h1 h.symm
        simp [lookupD, mapGet, this]
      · simp only [lookupD, mapGet, hk, if_false]
        exact ih

theorem keys_mapPush (m : List (String × List String)) (k t : String) :
    (mapPush m k t).map Prod.fst = m.map Prod.fst ∨
      (mapPush m k t).map Prod.fst = m.map Prod.fst ++ [k] := by
  induction m with
  | nil => right; simp [mapPush]
  | cons e rest ih =>
    obtain ⟨k₁, v⟩ := e
    simp only [mapPush]
    by_cases h1 : k₁ = k
    · left; simp [h1]
    · simp only [h1, if_false, List.map_cons]
      rcases ih with h | h
      · left; rw [h]
      · right; rw [h]; simp

theorem textsOf_cons (p : String × String) (rest : List (String × String)) (c : String) :
    textsOf (p :: rest) c =
      if p.1 = c then p.2 :: textsOf rest c else textsOf rest c := by
  by_cases h : p.1 = c <;> simp [textsOf, List.filter_cons, h]

theorem foldl_insertPair_related (pairs : List (String × String)) :
    ∀ (acc : List (String × List String) × List (String × List String)) (c : String),
      isRelatedCategory c = true →
      lookupD (pairs.foldl insertPair acc).2 c = lookupD acc.2 c ++ textsOf pairs c := by
  induction pairs with
  | nil => intro acc c _; simp [textsOf]
  | cons p rest ih =>
    intro acc c hc
    rw [List.foldl_cons, ih (insertPair acc p) c hc, textsOf_cons]
    by_cases hp : isRelatedCategory p.1
    · simp only [insertPair, if_pos hp]
      rw [lookupD_mapPush]
      by_cases hpc : p.1 = c
      · simp [hpc, List.append_assoc]
      · simp [hpc]
    · have hpc : ¬ p.1 = c := fun h => hp (h ▸ hc)
      rw [if_neg hpc]
      simp only [insertPair, if_neg hp]

theorem foldl_insertPair_information (pairs : List (String × String)) :
    ∀ (acc : List (String × List String) × List (String × List String)) (c : String),
      isRelatedCategory c = false →
      lookupD (pairs.foldl insertPair acc).1 c = lookupD acc.1 c ++ textsOf pairs c := by
  induction pairs with
  | nil => intro acc c _; simp [textsOf]
  | cons p rest ih =>
    intro acc c hc
    rw [List.foldl_cons, ih (insertPair acc p) c hc, textsOf_cons]
    by_cases hp : isRelatedCategory p.1
    · have hpc : ¬ p.1 = c := by
        intro h; rw [h, hc] at hp; exact Bool.false_ne_true hp
      rw [if_neg hpc]
      simp only [insertPair, if_pos hp]
    · simp only [insertPair, if_neg hp]
      rw [lookupD_mapPush]
      by_cases hpc : p.1 = c
      · simp [hpc, List.append_assoc]
      · simp [hpc]

theorem foldl_insertPair_keys (pairs : List (String × String)) :
    ∀ (acc : List (String × List String) × List (String × List String)),
      (∀ k ∈ acc.2.map Prod.fst, isRelatedCategory k = true) →
      (∀ k ∈ acc.1.map Prod.fst, isRelatedCategory k = false) →
      (∀ k ∈ (pairs.foldl insertPair acc).2.map Prod.fst, isRelatedCategory k = true) ∧
      (∀ k ∈ (pairs.foldl insertPair acc).1.map Prod.fst, isRelatedCategory k = false) := by
  induction pairs with
  | nil => intro acc h2 h1; exact ⟨h2, h1⟩
  | cons p rest ih =>
    intro acc h2 h1
    rw [List.foldl_cons]
    by_cases hp : isRelatedCategory p.1
    · refine ih (insertPair acc p) ?_ ?_
      · intro k hk
        simp only [insertPair, if_pos hp] at hk
        rcases keys_mapPush acc.2 p.1 p.2 with h | h
        · rw [h] at hk; exact h2 k hk
        · rw [h] at hk
          rcases List.mem_append.mp hk with h | h
          · exact h2 k h
          · rw [List.mem_singleton.mp h]; exact hp
      · intro k hk
        simp only [insertPair, if_pos hp] at hk
        exact h1 k hk
    · refine ih (insertPair acc p) ?_ ?_
      · intro k hk
        simp only [insertPair, if_neg hp] at hk
        exact h2 k hk
      · intro k hk
        simp only [insertPair, if_neg hp] at hk
        rcases keys_mapPush acc.1 p.1 p.2 with h | h
        · rw [h] at hk; exact h1 k hk
        · rw [h] at hk
          rcases List.mem_append.mp hk with h | h
          · exact h1 k h
          · rw [List.mem_singleton.mp h]
            exact Bool.eq_false_iff.mpr hp

/-! Claim theorems. -/

/-- C1: for every input block, the header-extraction step of `Section::parse`
succeeds (splitting on the newline delimiter always yields at least one line,
so the `unwrap` on the first line never panics), and whenever `parse` produces
a `Section`, its `header` field is exactly the first line of the block,
verbatim, with no trimming. -/
theorem sectionParse_header_eq_first_line
    (classify : String → Option (String × String)) (s : String) (sec : Section) :
    splitLines s ≠ [] ∧
      (Section.parse classify s = some (Except.ok sec) →
        (splitLines s).head? = some sec.header) := by
  refine ⟨splitLines_ne_nil s, ?_⟩
  intro h
  cases hs : splitLines s with
  | nil => exact absurd hs (splitLines_ne_nil s)
  | cons first rest =>
    cases hc : classifyLines classify rest with
    | none => simp [Section.parse, hs, hc] at h
    | some pairs =>
      simp only [Section.parse, hs, hc, Option.some.injEq, Except.ok.injEq] at h
      rw [List.head?_cons, ← h]

theorem sectionParse_header_eq_first_line_witness :
    Section.parse (fun l => some ("Definition", l)) "H\nx" =
        some (Except.ok ⟨"H", [("Definition", ["x"])], []⟩) ∧
      (splitLines "H\nx").head? =
        some (Section.header ⟨"H", [("Definition", ["x"])], []⟩) :=
  ⟨by rfl,
    (sectionParse_header_eq_first_line (fun l => some ("Definition", l)) "H\nx"
      ⟨"H", [("Definition", ["x"])], []⟩).2 (by rfl)⟩

/-- C2: every category key of the `related` map of a parsed `Section` is one of
the three reserved names, every category key of its `information` map is a
non-reserved name, and no key occurs in both maps. -/
theorem sectionParse_related_information_keys
    (classify : String → Option (String × String)) (s : String) (sec : Section)
    (h : Section.parse classify s = some (Except.ok sec)) :
    (∀ k ∈ sec.related.map Prod.fst, isRelatedCategory k = true) ∧
    (∀ k ∈ sec.information.map Prod.fst, isRelatedCategory k = false) ∧
    (∀ k ∈ sec.related.map Prod.fst, k ∉ sec.information.map Prod.fst) := by
  cases hs : splitLines s with
  | nil => exact absurd hs (splitLines_ne_nil s)
  | cons first rest =>
    cases hc : classifyLines classify rest with
    | none => simp [Section.parse, hs, hc] at h
    | some pairs =>
      simp only [Section.parse, hs, hc, Option.some.injEq, Except.ok.injEq] at h
      obtain ⟨hrel, hinfo⟩ := foldl_insertPair_keys pairs ([], []) (by simp) (by simp)
      subst h
      refine ⟨hrel, hinfo, ?_⟩
      intro k hk hk'
      have h1 := hrel k hk
      have h2 := hinfo k hk'
      rw [h1] at h2
      exact absurd h2 (by simp)

theorem sectionParse_related_information_keys_witness :
    Section.parse
        (fun l => if l = "A" then some ("Ancestors", l) else some ("Definition", l))
        "H\nA\nd" =
      some (Except.ok ⟨"H", [("Definition", ["d"])], [("Ancestors", ["A"])]⟩) ∧
    ((∀ k ∈ ([("Ancestors", ["A"])] : List (String × List String)).map Prod.fst,
        isRelatedCategory k = true) ∧
      (∀ k ∈ ([("Definition", ["d"])] : List (String × List String)).map Prod.fst,
        isRelatedCategory k = false) ∧
      (∀ k ∈ ([("Ancestors", ["A"])] : List (String × List String)).map Prod.fst,
        k ∉ ([("Definition", ["d"])] : List (String × List String)).map Prod.fst)) :=
  ⟨by rfl,
    sectionParse_related_information_keys
      (fun l => if l = "A" then some ("Ancestors", l) else some ("Definition", l))
      "H\nA\nd" ⟨"H", [("Definition", ["d"])], [("Ancestors", ["A"])]⟩ (by rfl)⟩

/-- C3: for a block whose non-header lines all classify successfully, the
vector stored for any category `c` (in `related` when `c` is reserved, in
`information` otherwise) is exactly the ordered list of the texts of the
classified pairs carrying category `c`: same relative order as in the block,
no loss, and repeated categories accumulate into one vector instead of
overwriting. -/
theorem sectionParse_category_texts_in_order
    (classify : String → Option (String × String)) (s first : String)
    (rest : List String) (pairs : List (String × String)) (sec : Section)
    (hsplit : splitLines s = first :: rest)
    (hclass : classifyLines classify rest = some pairs)
    (hparse : Section.parse classify s = some (Except.ok sec)) :
    ∀ c : String,
      (isRelatedCategory c = true → lookupD sec.related c = textsOf pairs c) ∧
      (isRelatedCategory c = false → lookupD sec.information c = textsOf pairs c) := by
  simp only [Section.parse, hsplit, hclass, Option.some.injEq, Except.ok.injEq] at hparse
  subst hparse
  intro c
  constructor
  · intro hc
    have h := foldl_insertPair_related pairs ([], []) c hc
    simpa [lookupD, mapGet] using h
  · intro hc
    have h := foldl_insertPair_information pairs ([], []) c hc
    simpa [lookupD, mapGet] using h

theorem sectionParse_category_texts_in_order_witness :
    splitLines "H\na\nb" = "H" :: ["a", "b"] ∧
    classifyLines (fun l => some ("Related", l)) ["a", "b"] =
      some [("Related", "a"), ("Related", "b")] ∧
    Section.parse (fun l => some ("Related", l)) "H\na\nb" =
      some (Except.ok ⟨"H", [], [("Related", ["a", "b"])]⟩) ∧
    (isRelatedCategory "Related" = true →
      lookupD [("Related", ["a", "b"])] "Related" =
        textsOf [("Related", "a"), ("Related", "b")] "Related") :=
  ⟨by rfl, by rfl, by rfl,
    (sectionParse_category_texts_in_order (fun l => some ("Related", l)) "H\na\nb"
      "H" ["a", "b"] [("Related", "a"), ("Related", "b")]
      ⟨"H", [], [("Related", ["a", "b"])]⟩ (by rfl) (by rfl) (by rfl) "Related").1⟩

/-- C4: a reference string that is an exact member of the known-headers set is
kept unchanged by `Section::process_related_string`, whatever the headers
vector contains (the prefix scan of `find_matching_header` is never reached). -/
theorem processRelatedString_exact_match (s : String)
    (headersSet headersVec : List String) (h : s ∈ headersSet) :
    processRelatedString s headersSet headersVec = some s := by
  simp [processRelatedString, h]

theorem processRelatedString_exact_match_witness :
    ("AB" : String) ∈ ["AB"] ∧
      processRelatedString "AB" ["AB"] ["ABC", "ABD"] = some "AB" :=
  ⟨by decide, processRelatedString_exact_match "AB" ["AB"] ["ABC", "ABD"] (by decide)⟩

/-- C5: a reference string that is not an exact member of the known-headers
set and is a prefix of some header is replaced by the *first* header of the
headers vector that it is a prefix of; in particular a proper prefix of
exactly one header resolves to that header. -/
theorem processRelatedString_first_prefix_match (s : String)
    (headersSet hv₁ hv₂ : List String) (h : String)
    (hexact : s ∉ headersSet)
    (hbefore : ∀ x ∈ hv₁, startsWith x s = false)
    (hpref : startsWith h s = true) :
    processRelatedString s headersSet (hv₁ ++ h :: hv₂) = some h := by
  simp only [processRelatedString, if_neg hexact, findMatchingHeader]
  rw [List.filter_append]
  have h1 : hv₁.filter (fun x => startsWith x s) = [] := by
    rw [List.filter_eq_nil_iff]
    intro x hx
    simp [hbefore x hx]
  rw [h1, List.nil_append, List.filter_cons, if_pos hpref, List.head?_cons]

theorem processRelatedString_first_prefix_match_witness :
    (("Orthogonal Mat" : String) ∉ ["Identity Matrix"]) ∧
      startsWith "Orthogonal Matrix" "Orthogonal Mat" = true ∧
      processRelatedString "Orthogonal Mat" ["Identity Matrix"]
        (["Identity Matrix"] ++ "Orthogonal Matrix" :: []) =
        some "Orthogonal Matrix" :=
  ⟨by decide, by decide,
    processRelatedString_first_prefix_match "Orthogonal Mat" ["Identity Matrix"]
      ["Identity Matrix"] [] "Orthogonal Matrix" (by decide)
      (by intro x hx; rw [List.mem_singleton.mp hx]; decide) (by decide)⟩

/-- Mapping two pointwise-related lists with functions that agree on related
elements gives the same list. -/
theorem forall₂_map_eq {α β γ : Type} {R : α → β → Prop} (f : α → γ) (g : β → γ) :
    ∀ {l : List α} {l' : List β}, List.Forall₂ R l l' →
      (∀ a b, R a b → g b = f a) → l'.map g = l.map f := by
  intro l l' h hfg
  induction h with
  | nil => rfl
  | cons hab _ ih => simp [hfg _ _ hab, ih]

/-- C6 counterexample: a `related` string matching zero known headers does not
produce a recoverable typed error: `Section::update_related` aborts (the
`unwrap` panic inside `find_matching_header`, modeled as `none`), returning
neither a Section nor any error value to the caller. -/
theorem updateRelated_unresolved_not_typed_failure :
    Section.updateRelated ⟨"A", [], [("Related", ["zzz"])]⟩ ["A"] ["A"] = none := by
  rfl

/-- C6 (amended): a reference string in `related` that is neither an exact
known header nor a prefix of any known header makes reconciliation abort with
the `unwrap` panic of `find_matching_header` (modeled as `none`): no Section
is produced and the string is not silently passed through; the failure is a
process-terminating panic rather than a recoverable typed
`UnresolvedReferenceError`. -/
theorem updateRelated_unresolved_aborts (sec : Section)
    (headersSet headersVec : List String) (c s : String) (v : List String)
    (hcv : (c, v) ∈ sec.related) (hsv : s ∈ v)
    (h1 : s ∉ headersSet) (h2 : ∀ x ∈ headersVec, startsWith x s = false) :
    Section.updateRelated sec headersSet headersVec = none := by
  have hstr : processRelatedString s headersSet headersVec = none := by
    simp only [processRelatedString, if_neg h1, findMatchingHeader]
    rw [List.filter_eq_nil_iff.mpr ?_]
    · rfl
    · intro x hx; simp [h2 x hx]
  have hentry : processRelatedEntry (c, v) headersSet headersVec = none := by
    simp only [processRelatedEntry]
    rw [(traverseOpt_eq_none _ _).mpr ⟨s, hsv, hstr⟩]
    rfl
  simp only [Section.updateRelated]
  rw [(traverseOpt_eq_none _ _).mpr ⟨(c, v), hcv, hentry⟩]
  rfl

theorem updateRelated_unresolved_aborts_witness :
    ((("Children", ["qq"]) : String × List String) ∈
        (⟨"X", [], [("Children", ["qq"])]⟩ : Section).related) ∧
      ("qq" : String) ∉ (["Alpha"] : List String) ∧
      Section.updateRelated ⟨"X", [], [("Children", ["qq"])]⟩ ["Alpha"] ["Alpha"] = none :=
  ⟨by decide, by decide,
    updateRelated_unresolved_aborts ⟨"X", [], [("Children", ["qq"])]⟩ ["Alpha"] ["Alpha"]
      "Children" "qq" ["qq"] (by decide) (by decide) (by decide)
      (by intro x hx; rw [List.mem_singleton.mp hx]; decide)⟩

/-- C7: reconciling an already-reconciled Section — one in which every string
of the `related` map is an exact member of the known-headers set — returns
the input Section unchanged: same header, same information map, same related
map. -/
theorem updateRelated_idempotent_on_reconciled (sec : Section)
    (headersSet headersVec : List String)
    (h : ∀ e ∈ sec.related, ∀ s ∈ e.2, s ∈ headersSet) :
    Section.updateRelated sec headersSet headersVec = some sec := by
  have hent : ∀ e ∈ sec.related, processRelatedEntry e headersSet headersVec = some e := by
    intro e he
    simp only [processRelatedEntry]
    rw [traverseOpt_id _ _ (fun x hx => by simp [processRelatedString, h e he x hx])]
    simp
  simp only [Section.updateRelated]
  rw [traverseOpt_id _ _ hent]
  simp

theorem updateRelated_idempotent_on_reconciled_witness :
    (∀ e ∈ (⟨"C", [("D", ["t"])], [("Ancestors", ["A"])]⟩ : Section).related,
        ∀ s ∈ e.2, s ∈ (["A", "B"] : List String)) ∧
      Section.updateRelated ⟨"C", [("D", ["t"])], [("Ancestors", ["A"])]⟩
          ["A", "B"] ["A", "B"] =
        some ⟨"C", [("D", ["t"])], [("Ancestors", ["A"])]⟩ :=
  ⟨by decide,
    updateRelated_idempotent_on_reconciled ⟨"C", [("D", ["t"])], [("Ancestors", ["A"])]⟩
      ["A", "B"] ["A", "B"] (by decide)⟩

/-- C8: when reconciliation succeeds, the resulting Section keeps the input's
header and information map unchanged, and its related map has the same
category keys with value vectors of the same lengths — only the individual
strings are replaced. -/
theorem updateRelated_frame (sec : Section) (headersSet headersVec : List String)
    (sec' : Section)
    (h : Section.updateRelated sec headersSet headersVec = some sec') :
    sec'.header = sec.header ∧ sec'.information = sec.information ∧
      sec'.related.map (fun e => (e.1, e.2.length)) =
        sec.related.map (fun e => (e.1, e.2.length)) := by
  simp only [Section.updateRelated] at h
  cases ht : traverseOpt (fun e => processRelatedEntry e headersSet headersVec)
      sec.related with
  | none => rw [ht] at h; exact absurd h (by simp)
  | some related' =>
    rw [ht] at h
    simp only [Option.map_some', Option.some.injEq] at h
    subst h
    refine ⟨rfl, rfl, ?_⟩
    refine forall₂_map_eq _ _ (traverseOpt_forall₂ _ _ _ ht) ?_
    intro e e' he
    simp only [processRelatedEntry] at he
    cases hv2 : traverseOpt (fun s => processRelatedString s headersSet headersVec)
        e.2 with
    | none => rw [hv2] at he; exact absurd he (by simp)
    | some v' =>
      rw [hv2] at he
      simp only [Option.map_some', Option.some.injEq] at he
      subst he
      have hlen := (traverseOpt_forall₂ _ _ _ hv2).length_eq
      simp [hlen]

theorem updateRelated_frame_witness :
    Section.updateRelated ⟨"A", [("D", ["t"])], [("Related", ["Orthogonal Mat"])]⟩
        ["Identity Matrix", "Orthogonal Matrix"]
        ["Identity Matrix", "Orthogonal Matrix"] =
      some ⟨"A", [("D", ["t"])], [("Related", ["Orthogonal Matrix"])]⟩ ∧
    (("A" : String) = "A" ∧
      [(("D" : String), (["t"] : List String))] = [("D", ["t"])] ∧
      [(("Related" : String), 1)] = [("Related", 1)]) :=
  ⟨by rfl,
    updateRelated_frame ⟨"A", [("D", ["t"])], [("Related", ["Orthogonal Mat"])]⟩
      ["Identity Matrix", "Orthogonal Matrix"] ["Identity Matrix", "Orthogonal Matrix"]
      ⟨"A", [("D", ["t"])], [("Related", ["Orthogonal Matrix"])]⟩ (by rfl)⟩

/-- C9 counterexample: a block whose second line fails classification makes
`Section::parse` abort with the `unwrap` panic (modeled as `none`): neither an
`Ok` Section nor an `Err` value is returned to the caller, so the failure is
not a recoverable typed `LineClassificationError`. -/
theorem sectionParse_classification_failure_counterexample :
    Section.parse (fun l => if l = "bad" then none else some ("Definition", l))
      "H\nbad" = none := by
  rfl

/-- C9 (amended): when any non-header line fails classification, `parse`
aborts (the `unwrap` panic on the classifier result, modeled as `none`): no
Section is produced for the block, and no error value is returned either —
the code panics instead of surfacing a recoverable typed
`LineClassificationError`, and its `Err` type `()` could carry neither the
offending line nor its position. -/
theorem sectionParse_classification_failure_aborts
    (classify : String → Option (String × String)) (s first : String)
    (rest : List String) (hsplit : splitLines s = first :: rest)
    (l : String) (hl : l ∈ rest) (hfail : classify l = none) :
    Section.parse classify s = none := by
  have hc : classifyLines classify rest = none :=
    (traverseOpt_eq_none _ _).mpr ⟨l, hl, hfail⟩
  simp [Section.parse, hsplit, hc]

theorem sectionParse_classification_failure_aborts_witness :
    splitLines "H\nbadline" = "H" :: ["badline"] ∧
      ("badline" : String) ∈ ["badline"] ∧
      (fun l => if l = "badline" then none
        else some (("Definition" : String), l)) "badline" = none ∧
      Section.parse (fun l => if l = "badline" then none else some ("Definition", l))
        "H\nbadline" = none :=
  ⟨by rfl, by decide, by decide,
    sectionParse_classification_failure_aborts
      (fun l => if l = "badline" then none else some ("Definition", l)) "H\nbadline"
      "H" ["badline"] (by rfl) "badline" (by decide) (by decide)⟩

/-- C10: `parse` never returns the `Err` variant of its `Result` type; when
every non-header line classifies successfully it returns `Ok`; and splitting
always yields at least one (possibly empty) line, so on the empty string
`parse` succeeds with an empty header and two empty maps — the empty-input
failure branch is unreachable. -/
theorem sectionParse_never_err (classify : String → Option (String × String))
    (s : String) :
    (∀ e : Unit, Section.parse classify s ≠ some (Except.error e)) ∧
      ((∃ pairs, classifyLines classify ((splitLines s).tail) = some pairs) →
        ∃ sec, Section.parse classify s = some (Except.ok sec)) ∧
      Section.parse classify "" = some (Except.ok ⟨"", [], []⟩) := by
  refine ⟨?_, ?_, by rfl⟩
  · intro e h
    cases hs : splitLines s with
    | nil => exact absurd hs (splitLines_ne_nil s)
    | cons first rest =>
      cases hc : classifyLines classify rest with
      | none => simp [Section.parse, hs, hc] at h
      | some pairs => simp [Section.parse, hs, hc] at h
  · rintro ⟨pairs, hp⟩
    cases hs : splitLines s with
    | nil => exact absurd hs (splitLines_ne_nil s)
    | cons first rest =>
      rw [hs] at hp
      simp only [List.tail_cons] at hp
      refine ⟨⟨first, (pairs.foldl insertPair ([], [])).1,
        (pairs.foldl insertPair ([], [])).2⟩, ?_⟩
      simp [Section.parse, hs, hp]

theorem sectionParse_never_err_witness :
    (∃ pairs, classifyLines (fun l => some (("Topic" : String), l))
        ((splitLines "K\ny").tail) = some pairs) ∧
      ∃ sec, Section.parse (fun l => some ("Topic", l)) "K\ny" =
        some (Except.ok sec) :=
  ⟨⟨[("Topic", "y")], by rfl⟩,
    (sectionParse_never_err (fun l => some ("Topic", l)) "K\ny").2.1
      ⟨[("Topic", "y")], by rfl⟩⟩
